import Mathlib

/-!
Verification of the core text routines of the PraisonAIPPT repository:
the sentence-boundary text segmenter (`split_long_text` in `src/app.py`,
identical in `src/create_bible_verses_presentation.py`), the highlight
span merger (the span computation performed by `_apply_highlights` in
`src/pptx_bible_verses/core.py`), and the slide-emission structure of the
document builder (`create_presentation` in `src/pptx_bible_verses/core.py`).

Python strings are embedded as `List Char`; Python `len` is `List.length`.
Case-insensitive matching (`re.IGNORECASE` on `re.escape`d literals) is
modelled by comparing ASCII-lowercased characters, which agrees with
Python on the ASCII texts all concrete claims use.
-/

/-- ASCII lowercasing of a string, modelling the case folding performed by
`re.IGNORECASE` for the literal (escaped) patterns the code compiles. -/
def lowerL (l : List Char) : List Char := l.map Char.toLower

/-- `matchesAt text pat i` holds when the case-folded `pat` occurs in
`text` starting at index `i` (a literal, case-insensitive substring test). -/
def matchesAt (text pat : List Char) (i : Nat) : Bool :=
  List.isPrefixOf (lowerL pat) (lowerL (text.drop i))

/-- The left-to-right, non-overlapping selection of match positions that
`re.finditer` performs: sweep candidate start positions in ascending order,
accept a position `i` when it is at or past the scan position, and resume
the scan at the end `i + patLen` of the accepted match.  With `patLen = 0`
every position is accepted, matching `re.finditer` on an empty pattern. -/
def selectNonOverlapping (patLen : Nat) : List Nat → Nat → List (Nat × Nat)
  | [], _ => []
  | i :: rest, pos =>
    if pos ≤ i then (i, i + patLen) :: selectNonOverlapping patLen rest (i + patLen)
    else selectNonOverlapping patLen rest pos

/-- All matches of `re.finditer(re.escape(pat), text, re.IGNORECASE)` as
`(start, end)` pairs: the leftmost, non-overlapping, case-insensitive
occurrences of the literal `pat` in `text`. -/
def findOccurrences (text pat : List Char) : List (Nat × Nat) :=
  selectNonOverlapping pat.length
    ((List.range (text.length + 1)).filter (matchesAt text pat)) 0

/-- Stable insertion of a match in front of the first element whose start
is not smaller; `sortByStart` built on it reproduces Python's stable
`matches.sort(key=lambda x: x[0])`. -/
def insertByStart (x : Nat × Nat) : List (Nat × Nat) → List (Nat × Nat)
  | [] => [x]
  | y :: ys => if x.1 ≤ y.1 then x :: y :: ys else y :: insertByStart x ys

/-- Stable sort of the candidate matches by start position, as in
`matches.sort(key=lambda x: x[0])` (Python's sort is stable). -/
def sortByStart (l : List (Nat × Nat)) : List (Nat × Nat) :=
  l.foldr insertByStart []

/-- The overlap-removal sweep of `_apply_highlights`: starting from
`last_end = -1`, accept a match `(s, e)` exactly when `s >= last_end`,
then set `last_end = e`; rejected matches are dropped. -/
def filterAux (last : Int) : List (Nat × Nat) → List (Nat × Nat)
  | [] => []
  | (s, e) :: rest =>
    if last ≤ (s : Int) then (s, e) :: filterAux (e : Int) rest
    else filterAux last rest

/-- A highlight span over the verse text: the half-open character range
`[start, stop)` (`stop` embeds the Python `end` index) together with
whether the range is rendered highlighted. -/
structure Span where
  start : Nat
  stop : Nat
  highlighted : Bool
deriving DecidableEq

/-- The run-emission loop of `_apply_highlights`, abstracted to spans:
walk the accepted matches keeping `current_pos`; before each match emit a
plain span for the gap (when `current_pos < start`), then the highlighted
match span; after the last match emit the plain tail when
`current_pos < len(text)`. -/
def buildSpans (len : Nat) : Nat → List (Nat × Nat) → List Span
  | pos, [] => if pos < len then [⟨pos, len, false⟩] else []
  | pos, (s, e) :: rest =>
    (if pos < s then [⟨pos, s, false⟩] else []) ++ ⟨s, e, true⟩ :: buildSpans len e rest

/-- The `filtered_matches` list of `_apply_highlights`: all
case-insensitive occurrences of every highlight term, sorted stably by
start, with overlaps dropped by the `last_end` sweep. -/
def acceptedMatches (text : List Char) (highlights : List (List Char)) : List (Nat × Nat) :=
  filterAux (-1) (sortByStart (highlights.flatMap (findOccurrences text)))

/-- The span computation of `_apply_highlights` (the spec's
`computeSpans`): derive the alternating plain/highlighted partition from
the accepted matches; with no accepted match the whole text is one plain
span (the `paragraph.text = text` branch). -/
def computeSpans (text : List Char) (highlights : List (List Char)) : List Span :=
  if acceptedMatches text highlights = [] then [⟨0, text.length, false⟩]
  else buildSpans text.length 0 (acceptedMatches text highlights)

example : computeSpans "abcdef".toList ["abc".toList, "bcd".toList] =
    [⟨0, 3, true⟩, ⟨3, 6, false⟩] := by decide

example : computeSpans "The Lord is good".toList ["lord".toList] =
    [⟨0, 4, false⟩, ⟨4, 8, true⟩, ⟨8, 16, false⟩] := by decide

example : computeSpans "Hello world".toList [] = [⟨0, 11, false⟩] := by decide

/-- Python `str.isspace`-style whitespace, as stripped by `str.strip()`. -/
def pyIsSpace (c : Char) : Bool :=
  c == ' ' || c == '\t' || c == '\n' || c == '\x0d' || c == '\x0b' || c == '\x0c'

/-- Python `str.strip()`: remove leading and trailing whitespace. -/
def pyStrip (l : List Char) : List Char :=
  ((l.dropWhile pyIsSpace).reverse.dropWhile pyIsSpace).reverse

/-- Python `str.replace` specialised to the two-character pattern `[a, b]`
replaced by the two-character string `[c, d]`, scanning left to right over
non-overlapping occurrences — exactly the three `text.replace('. ', '.|')`
style calls of `split_long_text`. -/
def replacePair (a b c d : Char) : List Char → List Char
  | [] => []
  | [x] => [x]
  | x :: y :: rest =>
    if x = a ∧ y = b then c :: d :: replacePair a b c d rest
    else x :: replacePair a b c d (y :: rest)

/-- Python `str.split(sep)` for a single-character separator: the pieces
between occurrences of `sep`, with empty pieces kept (so the result always
has one more piece than there are separators). -/
def pySplit (sep : Char) : List Char → List (List Char)
  | [] => [[]]
  | c :: rest =>
    if c = sep then [] :: pySplit sep rest
    else
      match pySplit sep rest with
      | [] => [[c]]
      | p :: ps => (c :: p) :: ps

/-- The sentence units of `split_long_text`:
`text.replace('. ', '.|').replace('! ', '!|').replace('? ', '?|').split('|')`. -/
def sentence_units (text : List Char) : List (List Char) :=
  pySplit '|'
    (replacePair '?' ' ' '?' '|'
      (replacePair '!' ' ' '!' '|'
        (replacePair '.' ' ' '.' '|' text)))

/-- The greedy accumulation loop of `split_long_text`: keep extending the
current part while the concatenation stays within `maxLen`; otherwise emit
`current_part.strip()` when the current part is non-empty (Python
truthiness) and restart from the unit that overflowed; finally emit the
stripped remainder when non-empty. -/
def chunkLoop (maxLen : Nat) : List (List Char) → List Char → List (List Char)
  | [], cur => if cur = [] then [] else [pyStrip cur]
  | s :: rest, cur =>
    if (cur ++ s).length ≤ maxLen then chunkLoop maxLen rest (cur ++ s)
    else if cur = [] then chunkLoop maxLen rest s
    else pyStrip cur :: chunkLoop maxLen rest s

/-- `split_long_text(text, max_length)` from `src/app.py` (and identically
`src/create_bible_verses_presentation.py`): return `[text]` when it fits,
otherwise split into sentence units, greedily regroup them under `maxLen`,
and fall back to `[text]` when no parts were produced. -/
def split_long_text (text : List Char) (maxLen : Nat) : List (List Char) :=
  if text.length ≤ maxLen then [text]
  else if chunkLoop maxLen (sentence_units text) [] = [] then [text]
  else chunkLoop maxLen (sentence_units text) []

example : split_long_text "hello".toList 10 = ["hello".toList] := by decide

example : split_long_text "ab. cd. ef".toList 6 =
    ["ab.cd.".toList, "ef".toList] := by decide

example : split_long_text "||".toList 1 = ["||".toList] := by decide

example : split_long_text "a|b".toList 1 = ["a".toList, "b".toList] := by decide

/-- A verse record from the input data: `reference`, `text`, and the
optional `highlights` list (`verse.get("highlights", None)`). -/
structure VerseData where
  reference : List Char
  text : List Char
  highlights : Option (List (List Char))
deriving DecidableEq

/-- A section record: the section name and the optional `verses` list
(`section_data.get("verses")`, `none` when the key is missing). -/
structure SectionData where
  name : List Char
  verses : Option (List VerseData)
deriving DecidableEq

/-- The root data dictionary; each `Option` field is `none` when the
corresponding key is absent from the loaded JSON object. -/
structure PresentationData where
  presentationTitle : Option (List Char)
  presentationSubtitle : Option (List Char)
  sections : Option (List SectionData)
deriving DecidableEq

/-- One emitted slide, abstracting the `python-pptx` calls of
`create_presentation`: the title slide, a section divider slide, or a
verse slide carrying its chunk text, reference, optional part number and
the highlight terms passed through to `add_verse_slide`. -/
inductive Slide where
  | titleSlide (title subtitle : List Char)
  | sectionSlide (name : List Char)
  | verseSlide (text reference : List Char) (partNum : Option Nat)
      (highlights : Option (List (List Char)))
deriving DecidableEq

/-- The verse-slide loop of `create_presentation`: split the verse text
with `split_long_text` (default `max_length=200`) and emit one slide per
part, numbering parts only when there are several. -/
def verseSlides (verse : VerseData) : List Slide :=
  let parts := split_long_text verse.text 200
  parts.enum.map fun pr =>
    Slide.verseSlide pr.2 verse.reference
      (if parts.length > 1 then some (pr.1 + 1) else none) verse.highlights

/-- The per-section slide emission of `create_presentation`: nothing when
`section_data.get("verses")` is missing or empty (Python falsiness plus the
`len > 0` check); otherwise a section divider slide (only when no custom
title was supplied) followed by the verse slides. -/
def sectionSlides (customTitle : Option (List Char)) (sec : SectionData) : List Slide :=
  match sec.verses with
  | none => []
  | some vs =>
    if 0 < vs.length then
      (if customTitle.isNone then [Slide.sectionSlide sec.name] else []) ++
        vs.flatMap verseSlides
    else []

/-- Default presentation title `data.get("presentation_title", ...)`. -/
def defaultTitle : List Char := "Bible Verses Collection".toList

/-- Default presentation subtitle `data.get("presentation_subtitle", ...)`. -/
def defaultSubtitle : List Char := "Selected Scriptures".toList

/-- The ordered slide emission of `create_presentation`: the title slide
(custom title with empty subtitle when supplied, else the JSON title and
subtitle with their defaults) followed by each section's slides in input
order (`data.get("sections", [])`). -/
def buildSlides (data : PresentationData) (customTitle : Option (List Char)) :
    List Slide :=
  let title := match customTitle with
    | some t => t
    | none => data.presentationTitle.getD defaultTitle
  let subtitle := match customTitle with
    | some _ => []
    | none => data.presentationSubtitle.getD defaultSubtitle
  Slide.titleSlide title subtitle ::
    (data.sections.getD []).flatMap (sectionSlides customTitle)

/-- Python falsiness of the `data` argument of `create_presentation`:
`None`, or an empty dictionary (a record with every modelled key absent). -/
def dataFalsy : Option PresentationData → Bool
  | none => true
  | some d =>
    d.presentationTitle.isNone && d.presentationSubtitle.isNone && d.sections.isNone

/-- The literal `.pptx` extension. -/
def pptxExt : List Char := ".pptx".toList

/-- `if not output_file.endswith('.pptx'): output_file += '.pptx'`. -/
def ensurePptx (f : List Char) : List Char :=
  if pptxExt.isSuffixOf f then f else f ++ pptxExt

/-- `create_presentation(data, output_file, custom_title)` from
`src/pptx_bible_verses/core.py`, with its effects made explicit: the
result is the returned value (`none` models Python `None`) paired with
the list of file writes performed (`prs.save`), each a filename with the
slides written there.  The filename sanitiser `sanitize_filename` lives in
the repository's `utils` module, which is not part of the given sources,
so it is taken as a function parameter; no claim depends on it.  A falsy
`data` returns `None` before any slide or file work. -/
def create_presentation (sanitize : List Char → List Char)
    (data : Option PresentationData) (outputFile : Option (List Char))
    (customTitle : Option (List Char)) :
    Option (List Char) × List (List Char × List Slide) :=
  if dataFalsy data then (none, [])
  else
    match data with
    | none => (none, [])
    | some d =>
      let slides := buildSlides d customTitle
      let outName := ensurePptx (match outputFile with
        | some f => f
        | none =>
          (match customTitle with
           | some t => sanitize t
           | none => sanitize (d.presentationTitle.getD "presentation".toList)) ++
            pptxExt)
      (some outName, [(outName, slides)])

example :
    buildSlides ⟨none, none, some [⟨"S".toList, some [⟨"R".toList, "t".toList, none⟩]⟩]⟩ none =
      [Slide.titleSlide defaultTitle defaultSubtitle,
       Slide.sectionSlide "S".toList,
       Slide.verseSlide "t".toList "R".toList none none] := by decide

example :
    buildSlides ⟨none, none, some [⟨"S".toList, some []⟩, ⟨"T".toList, none⟩]⟩ none =
      [Slide.titleSlide defaultTitle defaultSubtitle] := by decide

/-- Separation along the accepted-match sweep: each match starts at or
after the running `last_end` value, which then advances to its end. -/
def SepI : Int → List (Nat × Nat) → Prop
  | _, [] => True
  | last, (s, e) :: rest => last ≤ (s : Int) ∧ SepI (e : Int) rest

/-- Separation with bounds, over `Nat`: starting from position `pos`, each
match `(s, e)` satisfies `pos ≤ s ≤ e ≤ len` and the next match starts at
or after `e`. -/
def SepNat (len : Nat) : Nat → List (Nat × Nat) → Prop
  | _, [] => True
  | pos, (s, e) :: rest => pos ≤ s ∧ s ≤ e ∧ e ≤ len ∧ SepNat len e rest

/-- A span list forms a gap-free chain from position `a` to position `b`:
each span starts exactly where its predecessor stopped. -/
def spansChain : Nat → List Span → Nat → Prop
  | a, [], b => a = b
  | a, sp :: rest, b => sp.start = a ∧ a ≤ sp.stop ∧ spansChain sp.stop rest b

lemma filterAux_sublist (l : List (Nat × Nat)) :
    ∀ last, List.Sublist (filterAux last l) l := by
  induction l with
  | nil => intro last; simp [filterAux]
  | cons hd tl ih =>
    intro last
    obtain ⟨s, e⟩ := hd
    simp only [filterAux]
    split
    · exact List.Sublist.cons₂ _ (ih _)
    · exact List.Sublist.cons _ (ih _)

lemma filterAux_sepI (l : List (Nat × Nat)) :
    ∀ last, SepI last (filterAux last l) := by
  induction l with
  | nil => intro last; simp [filterAux, SepI]
  | cons hd tl ih =>
    intro last
    obtain ⟨s, e⟩ := hd
    simp only [filterAux]
    split
    · exact ⟨by assumption, ih _⟩
    · exact ih _

lemma sepI_sepNat (len : Nat) (xs : List (Nat × Nat)) :
    ∀ e : Nat, SepI (e : Int) xs →
      (∀ pr ∈ xs, pr.1 ≤ pr.2 ∧ pr.2 ≤ len) → SepNat len e xs := by
  induction xs with
  | nil => intro e _ _; trivial
  | cons hd tl ih =>
    intro e hsep hbound
    obtain ⟨s, e'⟩ := hd
    obtain ⟨hle, hrest⟩ := hsep
    have hb := hbound (s, e') (by simp)
    exact ⟨by exact_mod_cast hle, hb.1, hb.2,
      ih e' hrest (fun pr hpr => hbound pr (List.mem_cons_of_mem _ hpr))⟩

lemma mem_insertByStart {x y : Nat × Nat} (l : List (Nat × Nat)) :
    y ∈ insertByStart x l ↔ y = x ∨ y ∈ l := by
  induction l with
  | nil => simp [insertByStart]
  | cons hd tl ih =>
    simp only [insertByStart]
    split
    · simp
    · simp only [List.mem_cons, ih]
      tauto

lemma mem_sortByStart {y : Nat × Nat} (l : List (Nat × Nat)) :
    y ∈ sortByStart l ↔ y ∈ l := by
  induction l with
  | nil => simp [sortByStart]
  | cons hd tl ih =>
    simp only [sortByStart, List.foldr_cons] at *
    rw [mem_insertByStart, ih, List.mem_cons]

lemma selectNonOverlapping_mem {patLen : Nat} (l : List Nat) :
    ∀ pos pr, pr ∈ selectNonOverlapping patLen l pos → ∃ i ∈ l, pr = (i, i + patLen) := by
  induction l with
  | nil => intro pos pr hpr; simp [selectNonOverlapping] at hpr
  | cons i rest ih =>
    intro pos pr hpr
    simp only [selectNonOverlapping] at hpr
    split at hpr
    · rcases List.mem_cons.mp hpr with h | h
      · exact ⟨i, by simp, h⟩
      · obtain ⟨j, hj, hpr'⟩ := ih _ _ h
        exact ⟨j, List.mem_cons_of_mem _ hj, hpr'⟩
    · obtain ⟨j, hj, hpr'⟩ := ih _ _ hpr
      exact ⟨j, List.mem_cons_of_mem _ hj, hpr'⟩

lemma matchesAt_length_le {text pat : List Char} {i : Nat}
    (h : matchesAt text pat i = true) : pat.length ≤ text.length - i := by
  unfold matchesAt at h
  rw [List.isPrefixOf_iff_prefix] at h
  have := h.length_le
  simpa [lowerL] using this

lemma findOccurrences_bound {text pat : List Char} :
    ∀ pr ∈ findOccurrences text pat, pr.1 ≤ pr.2 ∧ pr.2 ≤ text.length := by
  intro pr hpr
  obtain ⟨i, hi, rfl⟩ := selectNonOverlapping_mem _ _ _ hpr
  have hmem := List.mem_filter.mp hi
  have hir : i ≤ text.length := by
    have := List.mem_range.mp hmem.1
    omega
  have hlen := matchesAt_length_le hmem.2
  constructor
  · omega
  · simp only []
    omega

lemma candidates_bound {text : List Char} {highlights : List (List Char)} :
    ∀ pr ∈ sortByStart (highlights.flatMap (findOccurrences text)),
      pr.1 ≤ pr.2 ∧ pr.2 ≤ text.length := by
  intro pr hpr
  rw [mem_sortByStart] at hpr
  obtain ⟨pat, _, hocc⟩ := List.mem_flatMap.mp hpr
  exact findOccurrences_bound pr hocc

lemma buildSpans_chain (len : Nat) (l : List (Nat × Nat)) :
    ∀ pos, pos ≤ len → SepNat len pos l →
      spansChain pos (buildSpans len pos l) len := by
  induction l with
  | nil =>
    intro pos hpos _
    simp only [buildSpans]
    split
    · exact ⟨rfl, hpos, rfl⟩
    · show pos = len
      omega
  | cons hd tl ih =>
    intro pos hpos hsep
    obtain ⟨s, e⟩ := hd
    obtain ⟨hps, hse, hel, hrest⟩ := hsep
    simp only [buildSpans]
    split
    · exact ⟨rfl, show pos ≤ s by omega, rfl, show s ≤ e from hse, ih e hel hrest⟩
    · have : pos = s := by omega
      subst this
      exact ⟨rfl, show pos ≤ e from hse, ih e hel hrest⟩

lemma acceptedMatches_sepNat (text : List Char) (highlights : List (List Char)) :
    SepNat text.length 0 (acceptedMatches text highlights) := by
  have hbound : ∀ pr ∈ acceptedMatches text highlights,
      pr.1 ≤ pr.2 ∧ pr.2 ≤ text.length :=
    fun pr hpr => candidates_bound pr ((filterAux_sublist _ (-1)).mem hpr)
  have hsep := filterAux_sepI (sortByStart (highlights.flatMap (findOccurrences text))) (-1)
  rw [show filterAux (-1) (sortByStart (highlights.flatMap (findOccurrences text))) =
      acceptedMatches text highlights from rfl] at hsep
  cases hfil : acceptedMatches text highlights with
  | nil => trivial
  | cons hd tl =>
    obtain ⟨s, e⟩ := hd
    rw [hfil] at hsep hbound
    obtain ⟨_, hrest⟩ := hsep
    have hb := hbound (s, e) (by simp)
    exact ⟨Nat.zero_le _, hb.1, hb.2,
      sepI_sepNat _ _ e hrest (fun pr hpr => hbound pr (List.mem_cons_of_mem _ hpr))⟩

lemma computeSpans_chain (text : List Char) (highlights : List (List Char)) :
    spansChain 0 (computeSpans text highlights) text.length := by
  unfold computeSpans
  split
  · exact ⟨rfl, Nat.zero_le _, rfl⟩
  · exact buildSpans_chain _ _ 0 (Nat.zero_le _) (acceptedMatches_sepNat text highlights)

lemma spansChain_mem_bounds {a b : Nat} {spans : List Span} (h : spansChain a spans b) :
    ∀ sp ∈ spans, a ≤ sp.start ∧ sp.start ≤ sp.stop ∧ sp.stop ≤ b := by
  induction spans generalizing a with
  | nil => intro sp hsp; simp at hsp
  | cons hd tl ih =>
    obtain ⟨hstart, hle, hrest⟩ := h
    intro sp hsp
    have htl := ih hrest
    rcases List.mem_cons.mp hsp with rfl | hmem
    · refine ⟨le_of_eq hstart.symm, hstart ▸ hle, ?_⟩
      cases tl with
      | nil => exact le_of_eq hrest
      | cons x xs =>
        have := htl x (by simp)
        obtain ⟨h1, h2, h3⟩ := this
        obtain ⟨hx, _, _⟩ := hrest
        omega
    · have := htl sp hmem
      omega

lemma spansChain_pairwise {a b : Nat} {spans : List Span} (h : spansChain a spans b) :
    List.Pairwise (fun x y => x.stop ≤ y.start) spans := by
  induction spans generalizing a with
  | nil => exact List.Pairwise.nil
  | cons hd tl ih =>
    obtain ⟨hstart, hle, hrest⟩ := h
    exact List.Pairwise.cons
      (fun y hy => (spansChain_mem_bounds hrest y hy).1) (ih hrest)

lemma spansChain_cover {a b : Nat} {spans : List Span} (h : spansChain a spans b) :
    ∀ i, a ≤ i → i < b → ∃ sp ∈ spans, sp.start ≤ i ∧ i < sp.stop := by
  induction spans generalizing a with
  | nil => intro i hai hib; subst h; omega
  | cons hd tl ih =>
    obtain ⟨hstart, hle, hrest⟩ := h
    intro i hai hib
    by_cases hi : i < hd.stop
    · exact ⟨hd, by simp, hstart ▸ hai, hi⟩
    · obtain ⟨sp, hsp, h1, h2⟩ := ih hrest i (by omega) hib
      exact ⟨sp, List.mem_cons_of_mem _ hsp, h1, h2⟩

lemma acceptedMatches_drop_long {text t : List Char} (hl₁ hl₂ : List (List Char))
    (h : findOccurrences text t = []) :
    acceptedMatches text (hl₁ ++ t :: hl₂) = acceptedMatches text (hl₁ ++ hl₂) := by
  unfold acceptedMatches
  rw [List.flatMap_append, List.flatMap_cons, h, List.flatMap_append]
  simp

lemma findOccurrences_long_nil {text pat : List Char} (h : text.length < pat.length) :
    findOccurrences text pat = [] := by
  unfold findOccurrences
  have hfil : (List.range (text.length + 1)).filter (matchesAt text pat) = [] := by
    rw [List.filter_eq_nil_iff]
    intro i _ hmat
    have := matchesAt_length_le hmat
    omega
  rw [hfil]
  rfl

/-- C1: for every text and every highlight list, the span sequence
produced by the merger is sorted by start position, mutually exclusive
(every span stops at or before the next one starts), and its spans cover
exactly the interval `[0, len text)`: an index lies in some span exactly
when it is a valid index of the text. -/
theorem c1_merger_partition_invariant (text : List Char) (highlights : List (List Char)) :
    List.Pairwise (fun x y => x.start ≤ y.start) (computeSpans text highlights) ∧
    List.Pairwise (fun x y => x.stop ≤ y.start) (computeSpans text highlights) ∧
    (∀ i : Nat,
      (∃ sp ∈ computeSpans text highlights, sp.start ≤ i ∧ i < sp.stop) ↔
        i < text.length) := by
  have hchain := computeSpans_chain text highlights
  have hpw := spansChain_pairwise hchain
  have hmb := spansChain_mem_bounds hchain
  refine ⟨?_, hpw, ?_⟩
  · exact hpw.imp_of_mem fun ha hb hr => le_trans (hmb _ ha).2.1 hr
  · intro i
    constructor
    · rintro ⟨sp, hsp, h1, h2⟩
      have := hmb sp hsp
      omega
    · intro hi
      exact spansChain_cover hchain i (Nat.zero_le _) hi

/-- C3: the merger resolves overlapping candidates by sorting by start and
sweeping left to right, keeping an interval only when its start is at or
past the end of the last kept interval and silently dropping the rest
(each kept interval is one of the candidates, never a merged union); in
particular on `"abcdef"` with terms `"abc"`, `"bcd"` the `(0,3)` match
wins, the overlapping `(1,4)` match is dropped, and the spans are
`[{0,3,highlighted}, {3,6,plain}]`. -/
theorem c3_merger_overlap_resolution :
    computeSpans "abcdef".toList ["abc".toList, "bcd".toList] =
      [⟨0, 3, true⟩, ⟨3, 6, false⟩] ∧
    (∀ (l : List (Nat × Nat)) (last : Int), List.Sublist (filterAux last l) l) ∧
    (∀ (l : List (Nat × Nat)) (last : Int), SepI last (filterAux last l)) :=
  ⟨by decide, filterAux_sublist, filterAux_sepI⟩

/-- C5 counterexample: the claimed output
`[{0,4,plain}, {4,8,highlighted}, {8,17,plain}]` is wrong — the text
`"The Lord is good"` has length 16, so the final plain span stops at 16,
not 17. -/
theorem c5_counterexample :
    computeSpans "The Lord is good".toList ["lord".toList] ≠
      [⟨0, 4, false⟩, ⟨4, 8, true⟩, ⟨8, 17, false⟩] := by decide

/-- C5 (amended): highlight terms match case-insensitively as literal
substrings, and `computeSpans("The Lord is good", ["lord"])` returns
exactly `[{0,4,plain}, {4,8,highlighted}, {8,16,plain}]`, matching
`"Lord"` despite the lowercase input term. -/
theorem c5_case_insensitive :
    computeSpans "The Lord is good".toList ["lord".toList] =
      [⟨0, 4, false⟩, ⟨4, 8, true⟩, ⟨8, 16, false⟩] := by decide

/-- C6 counterexample: an empty-string highlight term does not behave as
if it were absent — on `"ab"` it produces zero-width matches at every
position, so the output differs from the no-highlights output. -/
theorem c6_counterexample :
    computeSpans "ab".toList [[]] ≠ computeSpans "ab".toList [] := by decide

/-- C6 (amended): the merger is total and always returns at least one
span; a term longer than the text produces no matches and contributes
nothing to the output, as if it were absent; an empty-string term,
however, produces a zero-width match at every position (yielding
zero-width highlighted spans) rather than being ignored — still without
error. -/
theorem c6_merger_totality :
    (∀ (text : List Char) (highlights : List (List Char)),
        computeSpans text highlights ≠ []) ∧
    (∀ text pat : List Char, text.length < pat.length →
        findOccurrences text pat = []) ∧
    (∀ (text : List Char) (hl₁ hl₂ : List (List Char)) (t : List Char),
        text.length < t.length →
        computeSpans text (hl₁ ++ t :: hl₂) = computeSpans text (hl₁ ++ hl₂)) := by
  refine ⟨?_, fun text pat h => findOccurrences_long_nil h, ?_⟩
  · intro text highlights
    unfold computeSpans
    split
    · simp
    · rename_i hne
      cases h : acceptedMatches text highlights with
      | nil => exact absurd h hne
      | cons hd tl =>
        obtain ⟨s, e⟩ := hd
        simp [buildSpans]
  · intro text hl₁ hl₂ t ht
    unfold computeSpans
    rw [acceptedMatches_drop_long hl₁ hl₂ (findOccurrences_long_nil ht)]

/-- Witness for `c6_merger_totality` at concrete inputs. -/
theorem c6_merger_totality_witness :
    computeSpans "a".toList ["b".toList] ≠ [] ∧
    findOccurrences "a".toList "bc".toList = [] ∧
    computeSpans "a".toList ["bc".toList] = computeSpans "a".toList [] :=
  ⟨c6_merger_totality.1 "a".toList ["b".toList],
   c6_merger_totality.2.1 "a".toList "bc".toList (by decide),
   c6_merger_totality.2.2 "a".toList [] [] "bc".toList (by decide)⟩

lemma pyStrip_length_le (l : List Char) : (pyStrip l).length ≤ l.length := by
  unfold pyStrip
  calc (((l.dropWhile pyIsSpace).reverse.dropWhile pyIsSpace).reverse).length
      = ((l.dropWhile pyIsSpace).reverse.dropWhile pyIsSpace).length := by
        rw [List.length_reverse]
    _ ≤ (l.dropWhile pyIsSpace).reverse.length :=
        (List.dropWhile_sublist _).length_le
    _ = (l.dropWhile pyIsSpace).length := by rw [List.length_reverse]
    _ ≤ l.length := (List.dropWhile_sublist _).length_le

lemma chunkLoop_chunks (maxLen : Nat) (allUnits : List (List Char)) :
    ∀ (units : List (List Char)) (cur : List Char),
      (∀ u ∈ units, u ∈ allUnits) →
      (cur.length ≤ maxLen ∨ (cur ∈ allUnits ∧ maxLen < cur.length)) →
      ∀ c ∈ chunkLoop maxLen units cur,
        c.length ≤ maxLen ∨ ∃ u ∈ allUnits, c = pyStrip u ∧ maxLen < u.length := by
  intro units
  induction units with
  | nil =>
    intro cur _ hinv c hc
    simp only [chunkLoop] at hc
    split at hc
    · simp at hc
    · rw [List.mem_singleton] at hc
      subst hc
      rcases hinv with h | ⟨hmem, hlen⟩
      · exact Or.inl (le_trans (pyStrip_length_le cur) h)
      · exact Or.inr ⟨cur, hmem, rfl, hlen⟩
  | cons s rest ih =>
    intro cur hsub hinv c hc
    have hsub' : ∀ u ∈ rest, u ∈ allUnits :=
      fun u hu => hsub u (List.mem_cons_of_mem _ hu)
    have hsunit : s ∈ allUnits := hsub s (by simp)
    have hinvs : s.length ≤ maxLen ∨ (s ∈ allUnits ∧ maxLen < s.length) := by
      by_cases hs : s.length ≤ maxLen
      · exact Or.inl hs
      · exact Or.inr ⟨hsunit, Nat.lt_of_not_le hs⟩
    simp only [chunkLoop] at hc
    by_cases hfit : (cur ++ s).length ≤ maxLen
    · rw [if_pos hfit] at hc
      exact ih (cur ++ s) hsub' (Or.inl hfit) c hc
    · rw [if_neg hfit] at hc
      by_cases hcur : cur = []
      · rw [if_pos hcur] at hc
        exact ih s hsub' hinvs c hc
      · rw [if_neg hcur] at hc
        rcases List.mem_cons.mp hc with rfl | hc'
        · rcases hinv with h | ⟨hmem, hlen⟩
          · exact Or.inl (le_trans (pyStrip_length_le cur) h)
          · exact Or.inr ⟨cur, hmem, rfl, hlen⟩
        · exact ih s hsub' hinvs c hc'

/-- C2 counterexample: on text `"||"` with `maxLength = 1` the segmenter
returns the original text as its single chunk (the empty-parts fallback);
that chunk has length 2 > 1 but is not (the strip of) any sentence unit
exceeding the bound — every sentence unit of `"||"` is the empty string. -/
theorem c2_counterexample :
    ∃ c ∈ split_long_text "||".toList 1, 1 < c.length ∧
      ∀ u ∈ sentence_units "||".toList, ¬(c = pyStrip u ∧ 1 < u.length) := by
  decide

/-- C2 (amended): every chunk returned by the segmenter has length at most
`maxLen`, except that a chunk may exceed `maxLen` only when it is the
strip of a single sentence unit that by itself exceeds `maxLen`, or when
it is the original text returned whole by the no-usable-chunks fallback. -/
theorem c2_segmenter_length_bound (text : List Char) (maxLen : Nat) :
    ∀ c ∈ split_long_text text maxLen,
      c.length ≤ maxLen ∨
      (∃ u ∈ sentence_units text, c = pyStrip u ∧ maxLen < u.length) ∨
      c = text := by
  intro c hc
  unfold split_long_text at hc
  split at hc
  · rw [List.mem_singleton] at hc
    subst hc
    exact Or.inr (Or.inr rfl)
  · split at hc
    · rw [List.mem_singleton] at hc
      subst hc
      exact Or.inr (Or.inr rfl)
    · rcases chunkLoop_chunks maxLen (sentence_units text) (sentence_units text) []
          (fun u hu => hu) (Or.inl (by simp)) c hc with h | h
      · exact Or.inl h
      · exact Or.inr (Or.inl h)

/-- Witness for `c2_segmenter_length_bound` at a concrete input. -/
theorem c2_segmenter_length_bound_witness :
    "ab".toList.length ≤ 5 ∨
    (∃ u ∈ sentence_units "ab".toList, "ab".toList = pyStrip u ∧ 5 < u.length) ∨
    "ab".toList = "ab".toList :=
  c2_segmenter_length_bound "ab".toList 5 "ab".toList (by decide)

/-- C7: when the text already fits (`len(text) ≤ maxLen`), the segmenter
returns exactly the single-element sequence `[text]`, unchanged. -/
theorem c7_segmenter_short_circuit (text : List Char) (maxLen : Nat)
    (h : text.length ≤ maxLen) : split_long_text text maxLen = [text] := by
  unfold split_long_text
  rw [if_pos h]

/-- Witness for `c7_segmenter_short_circuit` at a concrete input. -/
theorem c7_segmenter_short_circuit_witness :
    split_long_text "hi".toList 5 = ["hi".toList] :=
  c7_segmenter_short_circuit "hi".toList 5 (by decide)

/-- C8: the segmenter is total and never returns an empty sequence (in
particular it returns at least one chunk for every non-empty input), and
whenever the greedy unit-splitting loop produces no usable chunks the
original full text is returned as the single-element fallback. -/
theorem c8_segmenter_safety (text : List Char) (maxLen : Nat) :
    split_long_text text maxLen ≠ [] ∧
    (chunkLoop maxLen (sentence_units text) [] = [] →
      split_long_text text maxLen = [text]) := by
  unfold split_long_text
  constructor
  · split
    · simp
    · split
      · simp
      · assumption
  · intro h
    simp [h]

/-- Witness for `c8_segmenter_safety` at a concrete fallback input. -/
theorem c8_segmenter_safety_witness :
    split_long_text "||".toList 1 ≠ [] ∧
    split_long_text "||".toList 1 = ["||".toList] :=
  ⟨(c8_segmenter_safety "||".toList 1).1,
   (c8_segmenter_safety "||".toList 1).2 (by decide)⟩

/-- A non-whitespace character (the characters the re-join property is
stated over). -/
def nonWS (c : Char) : Bool := !pyIsSpace c

/-- A character that survives both whitespace stripping and the internal
`'|'` sentinel of the segmenter. -/
def keepChar (c : Char) : Bool := !pyIsSpace c && !(c == '|')

lemma flatten_pySplit (sep : Char) (l : List Char) :
    (pySplit sep l).flatten = l.filter (fun c => !(c == sep)) := by
  induction l with
  | nil => simp [pySplit]
  | cons c rest ih =>
    simp only [pySplit]
    by_cases hc : c = sep
    · rw [if_pos hc]
      simp [hc, ih]
    · rw [if_neg hc]
      cases h : pySplit sep rest with
      | nil =>
        rw [h] at ih
        simp only [List.flatten_nil] at ih
        simp [List.filter_cons, hc, ← ih]
      | cons p ps =>
        rw [h] at ih
        simp only [List.flatten_cons] at ih ⊢
        simp [List.filter_cons, hc, ← ih]

lemma mem_pySplit_not_sep {sep : Char} {l : List Char} :
    ∀ p ∈ pySplit sep l, sep ∉ p := by
  induction l with
  | nil => intro p hp; simp [pySplit] at hp; simp [hp]
  | cons c rest ih =>
    intro p hp
    simp only [pySplit] at hp
    by_cases hc : c = sep
    · rw [if_pos hc] at hp
      rcases List.mem_cons.mp hp with rfl | hp'
      · simp
      · exact ih p hp'
    · rw [if_neg hc] at hp
      cases h : pySplit sep rest with
      | nil => rw [h] at hp; simp at hp; subst hp; simp [Ne.symm hc]
      | cons q qs =>
        rw [h] at hp
        rcases List.mem_cons.mp hp with rfl | hp'
        · intro hmem
          rcases List.mem_cons.mp hmem with rfl | hmem'
          · exact hc rfl
          · exact ih q (h ▸ List.mem_cons_self q qs) hmem'
        · exact ih p (h ▸ List.mem_cons_of_mem q hp')

lemma filter_replacePair {P : Char → Bool} {a b d : Char}
    (hb : P b = false) (hd : P d = false) :
    ∀ l : List Char, (replacePair a b a d l).filter P = l.filter P := by
  intro l
  induction l using replacePair.induct a b a d with
  | case1 => simp [replacePair]
  | case2 x => simp [replacePair]
  | case3 x y rest hxy ih =>
    obtain ⟨rfl, rfl⟩ := hxy
    rw [replacePair, if_pos ⟨rfl, rfl⟩]
    simp [List.filter_cons, hb, hd, ih]
  | case4 x y rest hxy ih =>
    rw [replacePair, if_neg hxy]
    simp [List.filter_cons, ih]

lemma filter_dropWhile {P q : Char → Bool} (hq : ∀ ch, q ch = true → P ch = false) :
    ∀ l : List Char, (l.dropWhile q).filter P = l.filter P := by
  intro l
  induction l with
  | nil => simp
  | cons c rest ih =>
    by_cases hc : q c = true
    · rw [List.dropWhile_cons_of_pos hc, ih, List.filter_cons, hq c hc]
      simp
    · rw [List.dropWhile_cons_of_neg hc]

lemma filter_pyStrip {P : Char → Bool} (hP : ∀ ch, pyIsSpace ch = true → P ch = false)
    (l : List Char) : (pyStrip l).filter P = l.filter P := by
  unfold pyStrip
  rw [List.filter_reverse, filter_dropWhile hP, List.filter_reverse,
    List.reverse_reverse, filter_dropWhile hP]

lemma mem_pyStrip {x : Char} {l : List Char} (h : x ∈ pyStrip l) : x ∈ l := by
  unfold pyStrip at h
  rw [List.mem_reverse] at h
  have h1 := (List.dropWhile_sublist _).mem h
  rw [List.mem_reverse] at h1
  exact (List.dropWhile_sublist _).mem h1

lemma filter_flatten_chunkLoop {P : Char → Bool}
    (hP : ∀ ch, pyIsSpace ch = true → P ch = false) (maxLen : Nat) :
    ∀ (units : List (List Char)) (cur : List Char),
      ((chunkLoop maxLen units cur).flatten).filter P =
        (cur ++ units.flatten).filter P := by
  intro units
  induction units with
  | nil =>
    intro cur
    simp only [chunkLoop]
    split
    · rename_i hcur
      subst hcur
      simp
    · simp [filter_pyStrip hP]
  | cons s rest ih =>
    intro cur
    simp only [chunkLoop]
    split
    · rw [ih (cur ++ s)]
      simp
    · split
      · rename_i hcur
        subst hcur
        rw [ih s]
        simp
      · rw [List.flatten_cons, List.filter_append, filter_pyStrip hP, ih s]
        simp

lemma mem_flatten_chunkLoop {x : Char} (maxLen : Nat) :
    ∀ (units : List (List Char)) (cur : List Char),
      x ∈ (chunkLoop maxLen units cur).flatten → x ∈ cur ∨ x ∈ units.flatten := by
  intro units
  induction units with
  | nil =>
    intro cur hx
    simp only [chunkLoop] at hx
    split at hx
    · simp at hx
    · simp only [List.flatten_cons, List.flatten_nil, List.append_nil] at hx
      exact Or.inl (mem_pyStrip hx)
  | cons s rest ih =>
    intro cur hx
    simp only [chunkLoop] at hx
    split at hx
    · rcases ih (cur ++ s) hx with h | h
      · rcases List.mem_append.mp h with h' | h'
        · exact Or.inl h'
        · exact Or.inr (by simp [h'])
      · exact Or.inr (by simp [h])
    · split at hx
      · rcases ih s hx with h | h
        · exact Or.inr (by simp [h])
        · exact Or.inr (by simp [h])
      · rw [List.flatten_cons, List.mem_append] at hx
        rcases hx with h | h
        · exact Or.inl (mem_pyStrip h)
        · rcases ih s h with h' | h'
          · exact Or.inr (by simp [h'])
          · exact Or.inr (by simp [h'])

/-- C4 counterexample: the segmenter's internal sentinel `'|'` is removed
from texts that contain it literally — on text `"a|b"` with `maxLength = 1`
the chunks re-join to `"ab"`, losing the non-whitespace character `'|'`. -/
theorem c4_counterexample :
    ¬(((split_long_text "a|b".toList 1).flatten).filter nonWS =
        ("a|b".toList).filter nonWS) := by decide

/-- C4 (amended): for every text containing no literal `'|'` character and
every `maxLen`, concatenating the chunks returned by the segmenter
reconstructs all non-whitespace characters of the original text in their
original order (at each sentence-delimiter split the punctuation mark
stays with the preceding unit and the following space is consumed); a
text containing `'|'` loses those characters to the internal sentinel. -/
theorem c4_segmenter_rejoin (text : List Char) (maxLen : Nat) (hp : '|' ∉ text) :
    ((split_long_text text maxLen).flatten).filter nonWS = text.filter nonWS := by
  have hstep : ∀ ch, pyIsSpace ch = true → keepChar ch = false := by
    intro ch h
    simp [keepChar, h]
  unfold split_long_text
  split
  · simp
  · split
    · simp
    · have hnopipe : '|' ∉ (chunkLoop maxLen (sentence_units text) []).flatten := by
        intro hmem
        rcases mem_flatten_chunkLoop maxLen (sentence_units text) [] hmem with h | h
        · simp at h
        · unfold sentence_units at h
          rw [flatten_pySplit] at h
          have := List.of_mem_filter h
          simp at this
      have hA : ((chunkLoop maxLen (sentence_units text) []).flatten).filter nonWS =
          ((chunkLoop maxLen (sentence_units text) []).flatten).filter keepChar := by
        apply List.filter_congr
        intro x hx
        have hxne : x ≠ '|' := fun h => hnopipe (h ▸ hx)
        simp [nonWS, keepChar, hxne]
      have hB := filter_flatten_chunkLoop (P := keepChar) hstep maxLen
        (sentence_units text) []
      have hC : ((sentence_units text).flatten).filter keepChar =
          (replacePair '?' ' ' '?' '|'
            (replacePair '!' ' ' '!' '|'
              (replacePair '.' ' ' '.' '|' text))).filter keepChar := by
        unfold sentence_units
        rw [flatten_pySplit, List.filter_filter]
        apply List.filter_congr
        intro x _
        by_cases hx : x = '|'
        · subst hx
          simp [keepChar]
        · simp [hx]
      have hD : (replacePair '?' ' ' '?' '|'
          (replacePair '!' ' ' '!' '|'
            (replacePair '.' ' ' '.' '|' text))).filter keepChar =
          text.filter keepChar := by
        rw [filter_replacePair (by decide) (by decide),
          filter_replacePair (by decide) (by decide),
          filter_replacePair (by decide) (by decide)]
      have hE : text.filter keepChar = text.filter nonWS := by
        apply List.filter_congr
        intro x hx
        have hxne : x ≠ '|' := fun h => hp (h ▸ hx)
        simp [nonWS, keepChar, hxne]
      rw [hA, hB, List.nil_append, hC, hD, hE]

/-- Witness for `c4_segmenter_rejoin` at a concrete input. -/
theorem c4_segmenter_rejoin_witness :
    ((split_long_text "ab".toList 1).flatten).filter nonWS =
      ("ab".toList).filter nonWS :=
  c4_segmenter_rejoin "ab".toList 1 (by decide)

lemma sectionSlides_empty (ct : Option (List Char)) (sec : SectionData)
    (h : sec.verses = none ∨ sec.verses = some []) : sectionSlides ct sec = [] := by
  unfold sectionSlides
  rcases h with h | h
  · rw [h]
  · rw [h]
    simp

lemma mem_sectionSlides {ct : Option (List Char)} {sec : SectionData} {name : List Char}
    (h : Slide.sectionSlide name ∈ sectionSlides ct sec) :
    ct = none ∧ sec.name = name ∧ ∃ vs, sec.verses = some vs ∧ vs ≠ [] := by
  obtain ⟨sname, sverses⟩ := sec
  cases sverses with
  | none => simp [sectionSlides] at h
  | some vs =>
    simp only [sectionSlides] at h
    split at h
    · rename_i hlen
      rw [List.mem_append] at h
      rcases h with h | h
      · split at h
        · rename_i hnone
          rw [List.mem_singleton] at h
          injection h with hn
          refine ⟨Option.isNone_iff_eq_none.mp hnone, hn.symm, vs, rfl, ?_⟩
          intro hemp
          subst hemp
          simp at hlen
        · simp at h
      · exfalso
        obtain ⟨v, _, hmem⟩ := List.mem_flatMap.mp h
        unfold verseSlides at hmem
        obtain ⟨pr, _, heq⟩ := List.mem_map.mp hmem
        exact Slide.noConfusion heq
    · simp at h

/-- C9: a section whose `verses` entry is missing or empty contributes no
slides at all — removing it from the section list leaves the built slide
sequence unchanged; and a section divider slide appears in the output only
when no custom title was supplied and some section with that name has a
non-empty verses list. -/
theorem c9_section_slide_conditions :
    (∀ (t st : Option (List Char)) (pre post : List SectionData)
        (sec : SectionData) (ct : Option (List Char)),
      (sec.verses = none ∨ sec.verses = some []) →
      buildSlides ⟨t, st, some (pre ++ sec :: post)⟩ ct =
        buildSlides ⟨t, st, some (pre ++ post)⟩ ct) ∧
    (∀ (data : PresentationData) (ct : Option (List Char)) (name : List Char),
      Slide.sectionSlide name ∈ buildSlides data ct →
      ct = none ∧ ∃ sec ∈ data.sections.getD [], sec.name = name ∧
        ∃ vs, sec.verses = some vs ∧ vs ≠ []) := by
  constructor
  · intro t st pre post sec ct h
    unfold buildSlides
    simp [List.flatMap_append, sectionSlides_empty ct sec h]
  · intro data ct name h
    unfold buildSlides at h
    rcases List.mem_cons.mp h with heq | hmem
    · exact Slide.noConfusion heq
    · obtain ⟨sec, hsec, hmem'⟩ := List.mem_flatMap.mp hmem
      obtain ⟨hct, hname, vs, hvs, hne⟩ := mem_sectionSlides hmem'
      exact ⟨hct, sec, hsec, hname, vs, hvs, hne⟩

/-- Witness for `c9_section_slide_conditions` at concrete inputs. -/
theorem c9_section_slide_conditions_witness :
    buildSlides ⟨none, none, some [⟨"S".toList, none⟩]⟩ none =
      buildSlides ⟨none, none, some []⟩ none ∧
    ((none : Option (List Char)) = none ∧
      ∃ sec ∈ (PresentationData.mk none none
          (some [⟨"S".toList, some [⟨"R".toList, "t".toList, none⟩]⟩])).sections.getD [],
        sec.name = "S".toList ∧ ∃ vs, sec.verses = some vs ∧ vs ≠ []) :=
  ⟨c9_section_slide_conditions.1 none none [] [] ⟨"S".toList, none⟩ none (Or.inl rfl),
   c9_section_slide_conditions.2
     ⟨none, none, some [⟨"S".toList, some [⟨"R".toList, "t".toList, none⟩]⟩]⟩
     none "S".toList (by decide)⟩

/-- C10: `create_presentation` called with a falsy `data` argument
(`None` or an empty dictionary) returns `None` and performs no file
write, leaving the filesystem unchanged. -/
theorem c10_falsy_data_no_output (sanitize : List Char → List Char)
    (data : Option PresentationData) (outputFile customTitle : Option (List Char))
    (h : dataFalsy data = true) :
    create_presentation sanitize data outputFile customTitle = (none, []) := by
  unfold create_presentation
  rw [if_pos h]

/-- Witness for `c10_falsy_data_no_output` with a missing data argument. -/
theorem c10_falsy_data_no_output_witness :
    create_presentation id none none none = (none, []) :=
  c10_falsy_data_no_output id none none none (by decide)
